import Mathlib

/-!
Shallow embedding of the `cortex-m-stack` crate (`src/lib.rs`), a stack
introspection library for Cortex-M: stack bounds from linker symbols, usage
accounting from the live stack pointer, and a paint/scan protocol measuring
the high-water mark of stack usage.

Modelling choices:
* Addresses are `Nat` byte addresses; 32-bit words live at 4-byte-spaced
  addresses, memory is a total map from word address to word value.
* `_stack_start` (the high end, `top`) and `_stack_end` (the low end,
  `bottom`) are fields of a `LinkEnv` parameter.
* The live stack pointer `sp` is an explicit argument; in the Rust code it is
  sampled from the `sp` register (`current_stack_ptr`).
* `ptr::byte_offset_from_unsigned` has the safety precondition
  `self >= origin`; violating it is undefined behaviour, so the embedding
  returns `Option Nat`, with `none` for the precondition violation.
* The inline-assembly loops of `repaint_stack` and `stack_painted`
  (`cmp sp, r0; bls out; stmia r0!, {r1}; b loop` and the analogous load
  loop) become structurally faithful tail-recursive functions: continue
  while the pointer is unsigned-below `sp`, advance by 4.
* `slice::partition_point` is embedded as the binary search loop of Rust's
  core library (`left`/`right`, midpoint probe).
-/

namespace CortexMStack

/-- The value used to paint the stack (`STACK_PAINT_VALUE: u32 = 0xCCCC_CCCC`). -/
def STACK_PAINT_VALUE : Nat := 0xCCCCCCCC

/-- Rust `core::ops::Range`, for pointer ranges; the Rust field `end` is
named `stop` because `end` is a Lean keyword. -/
structure PtrRange where
  start : Nat
  stop : Nat
  deriving DecidableEq, Repr

/-- The two linker symbols delimiting the stack region: `_stack_start` is the
high address (`top`), `_stack_end` the low address (`bottom`). -/
structure LinkEnv where
  stack_start : Nat
  stack_end : Nat
  deriving DecidableEq, Repr

/-- Memory: a total map from word-aligned byte address to 32-bit word value. -/
abbrev Mem := Nat → Nat

/-- A single 32-bit store: `store mem a v` writes word `v` at address `a`. -/
def store (mem : Mem) (a v : Nat) : Mem :=
  fun x => if x = a then v else mem x

/-- Rust `fn stack() -> Range<*mut u32>`: `addr_of!(_stack_start)..addr_of!(_stack_end)`. -/
def stack (env : LinkEnv) : PtrRange :=
  ⟨env.stack_start, env.stack_end⟩

/-- Rust `fn stack_rev() -> Range<*mut u32>`: `stack().end..stack().start`. -/
def stack_rev (env : LinkEnv) : PtrRange :=
  ⟨(stack env).stop, (stack env).start⟩

/-- Rust `ptr::byte_offset_from_unsigned(self, origin)`: the byte distance
`self - origin`; its safety contract demands `self >= origin`, otherwise the
call is undefined behaviour, embedded as `none`. -/
def byte_offset_from_unsigned (self origin : Nat) : Option Nat :=
  if origin ≤ self then some (self - origin) else none

/-- Rust `fn stack_size() -> u32`: `stack().start.byte_offset_from_unsigned(stack().end)`. -/
def stack_size (env : LinkEnv) : Option Nat :=
  byte_offset_from_unsigned (stack env).start (stack env).stop

/-- Rust `fn current_stack_in_use() -> u32`:
`stack().start.byte_offset_from_unsigned(current_stack_ptr())`. -/
def current_stack_in_use (env : LinkEnv) (sp : Nat) : Option Nat :=
  byte_offset_from_unsigned (stack env).start sp

/-- Rust `fn current_stack_free() -> u32`:
`stack_size().saturating_sub(current_stack_in_use())`; `Nat` subtraction is
exactly `u32::saturating_sub` here. -/
def current_stack_free (env : LinkEnv) (sp : Nat) : Option Nat :=
  match stack_size env, current_stack_in_use env sp with
  | some s, some u => some (s - u)
  | _, _ => none

/-- The paint loop of `repaint_stack`: register `r0` starts at `stack().end`
(the low address); while `sp` is strictly above `r0` (`cmp sp, r0; bls 1f`),
store the sentinel at `r0` and post-increment by 4 (`stmia r0!, {r1}`). -/
def repaint_loop (sp p : Nat) (mem : Mem) : Mem :=
  if h : p < sp then
    repaint_loop sp (p + 4) (store mem p STACK_PAINT_VALUE)
  else
    mem
termination_by sp - p
decreasing_by omega

/-- Rust `fn repaint_stack()`: paint every word from `stack().end` up to
(excluding) the current stack pointer with `STACK_PAINT_VALUE`. -/
def repaint_stack (env : LinkEnv) (sp : Nat) (mem : Mem) : Mem :=
  repaint_loop sp (stack env).stop mem

/-- The scan loop of `stack_painted`: `ptr` starts at `stack().end`; while
`sp` is strictly above `ptr`, load the word at `ptr`; stop on the first word
differing from the sentinel (`bne 1f`), else advance `ptr` by 4. Returns the
final `ptr`. -/
def scan_loop (mem : Mem) (sp p : Nat) : Nat :=
  if h : p < sp then
    if mem p = STACK_PAINT_VALUE then scan_loop mem sp (p + 4) else p
  else
    p
termination_by sp - p
decreasing_by omega

/-- Rust `fn stack_painted() -> u32`: run the scan loop from `stack().end`,
then `res.byte_offset_from_unsigned(stack().end)`. -/
def stack_painted (env : LinkEnv) (mem : Mem) (sp : Nat) : Option Nat :=
  byte_offset_from_unsigned (scan_loop mem sp (stack env).stop) (stack env).stop

/-- The binary search loop behind Rust `slice::partition_point`
(`binary_search_by` with `pred` mapped to `Less`/`Greater`): probe the
midpoint `left + (right - left) / 2`; on `pred` true move `left` past it,
otherwise move `right` to it; return `left` on exhaustion. -/
def partition_point_loop (pred : Nat → Bool) (left right : Nat) : Nat :=
  if h : left < right then
    let mid := left + (right - left) / 2
    if pred mid then partition_point_loop pred (mid + 1) right
    else partition_point_loop pred left mid
  else
    left
termination_by right - left
decreasing_by all_goals omega

/-- Rust `unsafe fn stack_painted_binary() -> u32`: view
`[stack().end, stack().end + (current_stack_free() / 4) * 4)` as a word
slice and return `slice.partition_point(|&w| w == STACK_PAINT_VALUE) * 4`.
The slice index `i` addresses the word at `stack().end + 4 * i`. -/
def stack_painted_binary (env : LinkEnv) (mem : Mem) (sp : Nat) : Option Nat :=
  (current_stack_free env sp).map fun free =>
    let len := free / 4
    partition_point_loop
      (fun i => mem ((stack env).stop + 4 * i) == STACK_PAINT_VALUE) 0 len * 4

/-! ### Fueled variants of the loops

The assembly loops run until the pointer reaches the live `sp`; the fueled
variants make termination itself a provable statement: `none` means the fuel
ran out before the loop exited. -/

/-- Fueled paint loop; `none` when fuel is exhausted before the exit test
`sp ≤ p` succeeds. -/
def repaint_loopF : Nat → Nat → Nat → Mem → Option Mem
  | 0, _, _, _ => none
  | fuel + 1, sp, p, mem =>
    if p < sp then repaint_loopF fuel sp (p + 4) (store mem p STACK_PAINT_VALUE)
    else some mem

/-- Fueled scan loop; `none` when fuel is exhausted before an exit condition
(pointer reached `sp`, or a non-sentinel word) fires. -/
def scan_loopF : Nat → Mem → Nat → Nat → Option Nat
  | 0, _, _, _ => none
  | fuel + 1, mem, sp, p =>
    if p < sp then
      if mem p = STACK_PAINT_VALUE then scan_loopF fuel mem sp (p + 4) else some p
    else some p

/-! ### Loop characterisation lemmas -/

/-- Pointwise effect of the paint loop: addresses `a` with `p ≤ a < sp` at
stride-4 offsets from `p` read the sentinel afterwards; all others are
untouched. -/
theorem repaint_loop_apply (sp : Nat) : ∀ n p mem a, sp - p ≤ n →
    repaint_loop sp p mem a =
      if p ≤ a ∧ a < sp ∧ (a - p) % 4 = 0 then STACK_PAINT_VALUE else mem a := by
  intro n
  induction n with
  | zero =>
    intro p mem a h
    rw [repaint_loop, dif_neg (by omega), if_neg (by omega)]
  | succ n ih =>
    intro p mem a h
    rw [repaint_loop]
    by_cases hp : p < sp
    · rw [dif_pos hp, ih (p + 4) _ a (by omega)]
      by_cases hap : a = p
      · subst hap
        rw [if_neg (by omega), if_pos ⟨le_refl _, hp, by simp⟩, store, if_pos rfl]
      · have hiff : (p + 4 ≤ a ∧ a < sp ∧ (a - (p + 4)) % 4 = 0) ↔
            (p ≤ a ∧ a < sp ∧ (a - p) % 4 = 0) := by omega
        rw [if_congr hiff rfl rfl, store]
        by_cases hc : p ≤ a ∧ a < sp ∧ (a - p) % 4 = 0
        · rw [if_pos hc, if_pos hc]
        · rw [if_neg hc, if_neg hc, if_neg hap]
    · rw [dif_neg hp, if_neg (by omega)]

/-- Pointwise effect of `repaint_stack`. -/
theorem repaint_stack_apply (env : LinkEnv) (sp : Nat) (mem : Mem) (a : Nat) :
    repaint_stack env sp mem a =
      if (stack env).stop ≤ a ∧ a < sp ∧ (a - (stack env).stop) % 4 = 0 then
        STACK_PAINT_VALUE
      else mem a := by
  exact repaint_loop_apply sp sp (stack env).stop mem a (by omega)

/-- Shape of the scan loop result: it stops at `p + 4·i` where the first `i`
words from `p` are sentinels below `sp`, and the exit was either reaching
`sp` or a non-sentinel word. -/
theorem scan_loop_shape (mem : Mem) (sp : Nat) : ∀ n p, sp - p ≤ n →
    ∃ i, scan_loop mem sp p = p + 4 * i ∧
      (∀ j < i, mem (p + 4 * j) = STACK_PAINT_VALUE ∧ p + 4 * j < sp) ∧
      (sp ≤ p + 4 * i ∨ (p + 4 * i < sp ∧ mem (p + 4 * i) ≠ STACK_PAINT_VALUE)) := by
  intro n
  induction n with
  | zero =>
    intro p h
    rw [scan_loop, dif_neg (by omega)]
    exact ⟨0, by omega, by omega, Or.inl (by omega)⟩
  | succ n ih =>
    intro p h
    rw [scan_loop]
    by_cases hp : p < sp
    · rw [dif_pos hp]
      by_cases hsent : mem p = STACK_PAINT_VALUE
      · rw [if_pos hsent]
        obtain ⟨i, hres, hall, hexit⟩ := ih (p + 4) (by omega)
        refine ⟨i + 1, by rw [hres]; omega, ?_, ?_⟩
        · intro j hj
          match j with
          | 0 => exact ⟨by simpa using hsent, by omega⟩
          | j' + 1 =>
            have heq : p + 4 * (j' + 1) = (p + 4) + 4 * j' := by omega
            rw [heq]
            exact hall j' (by omega)
        · have heq : p + 4 * (i + 1) = (p + 4) + 4 * i := by omega
          rw [heq]
          exact hexit
      · rw [if_neg hsent]
        exact ⟨0, by omega, by omega, Or.inr ⟨by omega, by simpa using hsent⟩⟩
    · rw [dif_neg hp]
      exact ⟨0, by omega, by omega, Or.inl (by omega)⟩

/-- The scan loop stops exactly at the first non-sentinel word: if the `k`
words from `p` are sentinels, the word after them is not, and that word is
still strictly below `sp`, the loop returns `p + 4·k`. -/
theorem scan_loop_stops_at (mem : Mem) (sp p k : Nat)
    (hsent : ∀ i < k, mem (p + 4 * i) = STACK_PAINT_VALUE)
    (hstop : mem (p + 4 * k) ≠ STACK_PAINT_VALUE)
    (hk : p + 4 * (k + 1) ≤ sp) :
    scan_loop mem sp p = p + 4 * k := by
  obtain ⟨i, hres, hall, hexit⟩ := scan_loop_shape mem sp sp p (by omega)
  rcases Nat.lt_trichotomy i k with hik | hik | hik
  · rcases hexit with hge | ⟨_, hne⟩
    · omega
    · exact absurd (hsent i hik) hne
  · rw [hres, hik]
  · exact absurd (hall k hik).1 hstop

/-- When every stride-4 word strictly below `sp` is a sentinel and `sp` is a
whole number of words above `p`, the scan loop runs all the way to `sp`. -/
theorem scan_loop_all_sentinel (mem : Mem) (sp p : Nat)
    (hlo : p ≤ sp) (hdvd : 4 ∣ (sp - p))
    (hsent : ∀ i, p + 4 * i < sp → mem (p + 4 * i) = STACK_PAINT_VALUE) :
    scan_loop mem sp p = sp := by
  obtain ⟨i, hres, hall, hexit⟩ := scan_loop_shape mem sp sp p (by omega)
  rcases hexit with hge | ⟨hlt, hne⟩
  · rw [hres]
    rcases Nat.eq_zero_or_pos i with hi0 | hipos
    · omega
    · have := (hall (i - 1) (by omega)).2
      omega
  · exact absurd (hsent i hlt) hne

/-- Correctness of the binary search loop on a partitioned predicate: if
`pred` holds strictly below `j` and fails on `[j, n)`, the loop pinned to
`[left, right] ∋ j` with `right ≤ n` returns `j`. -/
theorem partition_point_loop_eq (pred : Nat → Bool) (j n : Nat)
    (htrue : ∀ i < j, pred i = true)
    (hfalse : ∀ i, j ≤ i → i < n → pred i = false) :
    ∀ fuel left right, right - left ≤ fuel → left ≤ j → j ≤ right → right ≤ n →
      partition_point_loop pred left right = j := by
  intro fuel
  induction fuel with
  | zero =>
    intro left right hfuel hlj hjr hrn
    rw [partition_point_loop, dif_neg (by omega)]
    omega
  | succ fuel ih =>
    intro left right hfuel hlj hjr hrn
    rw [partition_point_loop]
    by_cases hlr : left < right
    · rw [dif_pos hlr]
      simp only []
      by_cases hpred : pred (left + (right - left) / 2) = true
      · rw [if_pos hpred]
        have hmidj : left + (right - left) / 2 < j := by
          by_contra hge
          rw [hfalse (left + (right - left) / 2) (by omega) (by omega)] at hpred
          exact Bool.false_ne_true hpred
        exact ih (left + (right - left) / 2 + 1) right (by omega) (by omega)
          (by omega) hrn
      · rw [if_neg hpred]
        have hjmid : j ≤ left + (right - left) / 2 := by
          by_contra hlt
          exact hpred (htrue (left + (right - left) / 2) (by omega))
        exact ih left (left + (right - left) / 2) (by omega) hlj hjmid (by omega)
    · rw [dif_neg hlr]
      omega

/-- Under `bottom ≤ sp ≤ top`, the free byte count is `sp - bottom`. -/
theorem current_stack_free_eq (env : LinkEnv) (sp : Nat)
    (hlo : env.stack_end ≤ sp) (hhi : sp ≤ env.stack_start) :
    current_stack_free env sp = some (sp - env.stack_end) := by
  have hbt : env.stack_end ≤ env.stack_start := le_trans hlo hhi
  simp only [current_stack_free, stack_size, current_stack_in_use,
    byte_offset_from_unsigned, stack, if_pos hbt, if_pos hhi]
  congr 1
  omega
/-- The fueled paint loop agrees with the total one given enough fuel. -/
theorem repaint_loopF_adequate (sp : Nat) : ∀ fuel p mem, sp - p < fuel →
    repaint_loopF fuel sp p mem = some (repaint_loop sp p mem) := by
  intro fuel
  induction fuel with
  | zero => intro p mem h; omega
  | succ fuel ih =>
    intro p mem h
    rw [repaint_loopF, repaint_loop]
    by_cases hp : p < sp
    · rw [if_pos hp, dif_pos hp]
      exact ih (p + 4) _ (by omega)
    · rw [if_neg hp, dif_neg hp]

/-- The fueled scan loop agrees with the total one given enough fuel. -/
theorem scan_loopF_adequate (mem : Mem) (sp : Nat) : ∀ fuel p, sp - p < fuel →
    scan_loopF fuel mem sp p = some (scan_loop mem sp p) := by
  intro fuel
  induction fuel with
  | zero => intro p h; omega
  | succ fuel ih =>
    intro p h
    rw [scan_loopF, scan_loop]
    by_cases hp : p < sp
    · rw [if_pos hp, dif_pos hp]
      by_cases hsent : mem p = STACK_PAINT_VALUE
      · rw [if_pos hsent, if_pos hsent]
        exact ih (p + 4) (by omega)
      · rw [if_neg hsent, if_neg hsent]
    · rw [if_neg hp, dif_neg hp]

/-- The scan result is at least its starting pointer, so the final
`byte_offset_from_unsigned` of `stack_painted` is always defined. -/
theorem stack_painted_eq (env : LinkEnv) (mem : Mem) (sp : Nat) :
    stack_painted env mem sp =
      some (scan_loop mem sp env.stack_end - env.stack_end) := by
  obtain ⟨i, hres, -, -⟩ := scan_loop_shape mem sp sp env.stack_end (by omega)
  simp only [stack_painted, stack, byte_offset_from_unsigned]
  rw [if_pos (by omega)]

/-! ### The claims -/

/-- Claim C1: with `bottom ≤ sp ≤ top` (and the data-model alignment of
`bottom` and `sp`), the linear scan `stack_painted` returns `4·k` whenever
the first `k` words at `bottom` hold the sentinel, the `(k+1)`-th does not,
and `bottom + (k+1)·4 ≤ sp`; and it returns `sp − bottom` whenever every
word in `[bottom, sp)` holds the sentinel. -/
theorem stack_painted_spec (env : LinkEnv) (mem : Mem) (sp : Nat)
    (hlo : env.stack_end ≤ sp) (hhi : sp ≤ env.stack_start)
    (hb4 : 4 ∣ env.stack_end) (hsp4 : 4 ∣ sp) :
    (∀ k, (∀ i < k, mem (env.stack_end + 4 * i) = STACK_PAINT_VALUE) →
        mem (env.stack_end + 4 * k) ≠ STACK_PAINT_VALUE →
        env.stack_end + (k + 1) * 4 ≤ sp →
        stack_painted env mem sp = some (4 * k)) ∧
    ((∀ a, env.stack_end ≤ a → a < sp → (a - env.stack_end) % 4 = 0 →
        mem a = STACK_PAINT_VALUE) →
      stack_painted env mem sp = some (sp - env.stack_end)) := by
  constructor
  · intro k hsent hstop hk
    rw [stack_painted_eq,
      scan_loop_stops_at mem sp env.stack_end k hsent hstop (by omega)]
    congr 1
    omega
  · intro hall
    rw [stack_painted_eq,
      scan_loop_all_sentinel mem sp env.stack_end hlo (by omega)
        (fun i hi => hall (env.stack_end + 4 * i) (by omega) hi (by omega))]

/-- Claim C1 witness: a 8-byte stack fully painted at `sp = top` scans to
the full `8` bytes. -/
theorem stack_painted_spec_witness :
    ((8 : Nat) ≤ 16 ∧ (16 : Nat) ≤ 16 ∧ (4 : Nat) ∣ 8 ∧ (4 : Nat) ∣ 16) ∧
      stack_painted ⟨16, 8⟩ (fun _ => STACK_PAINT_VALUE) 16 = some 8 :=
  ⟨by decide,
    (stack_painted_spec ⟨16, 8⟩ (fun _ => STACK_PAINT_VALUE) 16 (by decide)
      (by decide) (by decide) (by decide)).2 (fun a _ _ _ => rfl)⟩

/-- Claim C2: after `repaint_stack` runs with stack pointer `sp0`, every
word at an address in `[bottom, sp0)` holds the sentinel and every word at
an address in `[sp0, top)` is unchanged. -/
theorem repaint_stack_coverage (env : LinkEnv) (mem : Mem) (sp0 : Nat)
    (hlo : env.stack_end ≤ sp0) (hhi : sp0 ≤ env.stack_start) :
    (∀ a, env.stack_end ≤ a → a < sp0 → (a - env.stack_end) % 4 = 0 →
        repaint_stack env sp0 mem a = STACK_PAINT_VALUE) ∧
    (∀ a, sp0 ≤ a → a < env.stack_start → repaint_stack env sp0 mem a = mem a) := by
  constructor
  · intro a h1 h2 h3
    rw [repaint_stack_apply]
    exact if_pos ⟨h1, h2, h3⟩
  · intro a h1 h2
    rw [repaint_stack_apply, if_neg (by omega)]

/-- Claim C2 witness: painting a zeroed 8-byte stack at `sp0 = 12` sets the
word at `8` and leaves the word at `12` alone. -/
theorem repaint_stack_coverage_witness :
    ((8 : Nat) ≤ 12 ∧ (12 : Nat) ≤ 16) ∧
      ((∀ a, 8 ≤ a → a < 12 → (a - 8) % 4 = 0 →
          repaint_stack ⟨16, 8⟩ 12 (fun _ => 0) a = STACK_PAINT_VALUE) ∧
        (∀ a, 12 ≤ a → a < 16 → repaint_stack ⟨16, 8⟩ 12 (fun _ => 0) a = 0)) :=
  ⟨⟨by decide, by decide⟩,
    repaint_stack_coverage ⟨16, 8⟩ (fun _ => 0) 12 (by decide) (by decide)⟩

/-- Claim C7: painting twice at the same stack pointer value gives exactly
the memory state of painting once. -/
theorem repaint_stack_idempotent (env : LinkEnv) (sp : Nat) (mem : Mem) :
    repaint_stack env sp (repaint_stack env sp mem) = repaint_stack env sp mem := by
  funext a
  rw [repaint_stack_apply, repaint_stack_apply]
  by_cases hc : (stack env).stop ≤ a ∧ a < sp ∧ (a - (stack env).stop) % 4 = 0
  · simp only [if_pos hc]
  · simp only [if_neg hc]

/-- Claim C3: when the non-sentinel words of `[bottom, sp)` form a
contiguous suffix (the contiguity assumption), the binary scan returns the
same byte count as the linear scan, whatever the sentinel run length
(alignment of `bottom` and `sp` as in the data model). -/
theorem stack_painted_binary_eq_linear (env : LinkEnv) (mem : Mem) (sp : Nat)
    (hlo : env.stack_end ≤ sp) (hhi : sp ≤ env.stack_start)
    (hb4 : 4 ∣ env.stack_end) (hsp4 : 4 ∣ sp)
    (hcontig : ∃ j, (∀ i < j, mem (env.stack_end + 4 * i) = STACK_PAINT_VALUE) ∧
        (∀ i, j ≤ i → env.stack_end + 4 * i < sp →
          mem (env.stack_end + 4 * i) ≠ STACK_PAINT_VALUE)) :
    stack_painted_binary env mem sp = stack_painted env mem sp := by
  obtain ⟨j, hj1, hj2⟩ := hcontig
  have h4m : 4 * ((sp - env.stack_end) / 4) = sp - env.stack_end := by omega
  set m := (sp - env.stack_end) / 4 with hm
  have htrue : ∀ i < min j m,
      (fun i => mem (env.stack_end + 4 * i) == STACK_PAINT_VALUE) i = true := by
    intro i hi
    simpa using hj1 i (by omega)
  have hfalse : ∀ i, min j m ≤ i → i < m →
      (fun i => mem (env.stack_end + 4 * i) == STACK_PAINT_VALUE) i = false := by
    intro i h1 h2
    simpa using hj2 i (by omega) (by omega)
  have hbin : stack_painted_binary env mem sp = some (min j m * 4) := by
    rw [stack_painted_binary, current_stack_free_eq env sp hlo hhi]
    simp only [Option.map_some', stack]
    rw [← hm, partition_point_loop_eq _ (min j m) m htrue hfalse m 0 m (by omega)
      (by omega) (by omega) (by omega)]
  rcases Nat.lt_or_ge j m with hjm | hjm
  · have hlin := scan_loop_stops_at mem sp env.stack_end j
      (fun i hi => hj1 i hi) (hj2 j (le_refl j) (by omega)) (by omega)
    rw [hbin, stack_painted_eq, hlin]
    congr 1
    omega
  · have hlin := scan_loop_all_sentinel mem sp env.stack_end hlo (by omega)
      (fun i hi => hj1 i (by omega))
    rw [hbin, stack_painted_eq, hlin]
    congr 1
    omega

/-- Claim C3 witness: a fully scribbled 8-byte stack (contiguous with empty
sentinel run) gives equal binary and linear scan results. -/
theorem stack_painted_binary_eq_linear_witness :
    ((8 : Nat) ≤ 16 ∧ (16 : Nat) ≤ 16 ∧ (4 : Nat) ∣ 8 ∧ (4 : Nat) ∣ 16) ∧
      stack_painted_binary ⟨16, 8⟩ (fun _ => 0) 16 =
        stack_painted ⟨16, 8⟩ (fun _ => 0) 16 :=
  ⟨by decide,
    stack_painted_binary_eq_linear ⟨16, 8⟩ (fun _ => 0) 16 (by decide) (by decide)
      (by decide) (by decide)
      ⟨0, fun i hi => absurd hi (Nat.not_lt_zero i),
        fun i _ _ => by simp [STACK_PAINT_VALUE]⟩⟩

/-- Claim C4: for a sampled `sp` with `bottom ≤ sp ≤ top`, the in-use count
is `top − sp`, in-use plus free equals the stack size, and the size is
`top − bottom`. -/
theorem stack_accounting_identity (env : LinkEnv) (sp : Nat)
    (hlo : env.stack_end ≤ sp) (hhi : sp ≤ env.stack_start) :
    ∃ u f s, current_stack_in_use env sp = some u ∧
      current_stack_free env sp = some f ∧ stack_size env = some s ∧
      u = env.stack_start - sp ∧ u + f = s ∧
      s = env.stack_start - env.stack_end := by
  refine ⟨env.stack_start - sp, sp - env.stack_end,
    env.stack_start - env.stack_end, ?_, current_stack_free_eq env sp hlo hhi,
    ?_, rfl, by omega, rfl⟩
  · simp only [current_stack_in_use, byte_offset_from_unsigned, stack,
      if_pos hhi]
  · simp only [stack_size, byte_offset_from_unsigned, stack,
      if_pos (le_trans hlo hhi)]

/-- Claim C4 witness: at `sp = 12` on the `[8, 16)` stack, in-use is `4`,
free is `4`, and their sum is the size `8`. -/
theorem stack_accounting_identity_witness :
    ((8 : Nat) ≤ 12 ∧ (12 : Nat) ≤ 16) ∧
      ∃ u f s, current_stack_in_use ⟨16, 8⟩ 12 = some u ∧
        current_stack_free ⟨16, 8⟩ 12 = some f ∧ stack_size ⟨16, 8⟩ = some s ∧
        u = 16 - 12 ∧ u + f = s ∧ s = 16 - 8 :=
  ⟨⟨by decide, by decide⟩, stack_accounting_identity ⟨16, 8⟩ 12 (by decide) (by decide)⟩

/-- Claim C5 counterexample: with `bottom = 8`, `top = 16` and an overflowed
`sp = 0`, `current_stack_in_use` returns `16`, not the stack size `8` — the
in-use count does not saturate at `stack_size` as the claim states. -/
theorem stack_in_use_saturation_cex :
    current_stack_in_use ⟨16, 8⟩ 0 ≠ stack_size ⟨16, 8⟩ := by decide

/-- Claim C5 (amended): when `sp ≤ bottom` (stack overflow),
`current_stack_free` returns `0`, `current_stack_in_use` returns `top − sp`
— which is at least `stack_size`, without wraparound, and equals it only at
`sp = bottom` — `repaint_stack` writes nothing, and the linear scan returns
zero. -/
theorem stack_overflow_saturation (env : LinkEnv) (mem : Mem) (sp : Nat)
    (htb : env.stack_end ≤ env.stack_start) (hsp : sp ≤ env.stack_end) :
    current_stack_free env sp = some 0 ∧
    current_stack_in_use env sp = some (env.stack_start - sp) ∧
    (∀ s, stack_size env = some s → s ≤ env.stack_start - sp) ∧
    repaint_stack env sp mem = mem ∧
    stack_painted env mem sp = some 0 := by
  have h1 : stack_size env = some (env.stack_start - env.stack_end) := by
    simp only [stack_size, byte_offset_from_unsigned, stack]
    rw [if_pos htb]
  have h2 : current_stack_in_use env sp = some (env.stack_start - sp) := by
    simp only [current_stack_in_use, byte_offset_from_unsigned, stack]
    rw [if_pos (le_trans hsp htb)]
  refine ⟨?_, h2, ?_, ?_, ?_⟩
  · rw [current_stack_free, h1, h2]
    simp only [Option.some.injEq]
    omega
  · intro s hs
    rw [h1, Option.some.injEq] at hs
    omega
  · funext a
    rw [repaint_stack_apply, if_neg (by simp only [stack]; omega)]
  · rw [stack_painted_eq, scan_loop, dif_neg (by omega)]
    simp

/-- Claim C5 witness: on the `[8, 16)` stack with overflowed `sp = 4`, free
is `0`, in-use is `12` (above the size `8`), paint is a no-op and the scan
reports `0`. -/
theorem stack_overflow_saturation_witness :
    ((8 : Nat) ≤ 16 ∧ (4 : Nat) ≤ 8) ∧
      (current_stack_free ⟨16, 8⟩ 4 = some 0 ∧
        current_stack_in_use ⟨16, 8⟩ 4 = some (16 - 4) ∧
        (∀ s, stack_size ⟨16, 8⟩ = some s → s ≤ 16 - 4) ∧
        repaint_stack ⟨16, 8⟩ 4 (fun _ => 0) = (fun _ => 0) ∧
        stack_painted ⟨16, 8⟩ (fun _ => 0) 4 = some 0) :=
  ⟨⟨by decide, by decide⟩,
    stack_overflow_saturation ⟨16, 8⟩ (fun _ => 0) 4 (by decide) (by decide)⟩

/-- Claim C6 (code-bug exhibit): at a stack underflow, `sp = 20` above
`top = 16`, `current_stack_in_use` invokes `byte_offset_from_unsigned` with
`origin` above `self`, violating its safety precondition (undefined
behaviour, `none` in the embedding) — so this operation does not complete
for every `sp` as the claim demands. -/
theorem stack_in_use_underflow_ub :
    current_stack_in_use ⟨16, 8⟩ 20 = none := by decide

/-- Claim C8: with 4-byte-aligned linker symbols and a 4-byte-aligned stack
pointer, every byte count returned by `stack_size`, `current_stack_in_use`,
`current_stack_free`, `stack_painted` and `stack_painted_binary` is a
multiple of four. -/
theorem byte_counts_multiple_of_four (env : LinkEnv) (mem : Mem) (sp : Nat)
    (ht4 : 4 ∣ env.stack_start) (hb4 : 4 ∣ env.stack_end) (hsp4 : 4 ∣ sp) :
    (∀ v, stack_size env = some v → 4 ∣ v) ∧
    (∀ v, current_stack_in_use env sp = some v → 4 ∣ v) ∧
    (∀ v, current_stack_free env sp = some v → 4 ∣ v) ∧
    (∀ v, stack_painted env mem sp = some v → 4 ∣ v) ∧
    (∀ v, stack_painted_binary env mem sp = some v → 4 ∣ v) := by
  have hsize : ∀ v, stack_size env = some v → 4 ∣ v := by
    intro v hv
    simp only [stack_size, byte_offset_from_unsigned, stack] at hv
    split at hv
    · rw [Option.some.injEq] at hv
      omega
    · exact absurd hv (by simp)
  have huse : ∀ v, current_stack_in_use env sp = some v → 4 ∣ v := by
    intro v hv
    simp only [current_stack_in_use, byte_offset_from_unsigned, stack] at hv
    split at hv
    · rw [Option.some.injEq] at hv
      omega
    · exact absurd hv (by simp)
  refine ⟨hsize, huse, ?_, ?_, ?_⟩
  · intro v hv
    cases hs : stack_size env with
    | none => rw [current_stack_free, hs] at hv; exact absurd hv (by simp)
    | some s =>
      cases hu : current_stack_in_use env sp with
      | none => rw [current_stack_free, hs, hu] at hv; exact absurd hv (by simp)
      | some u =>
        rw [current_stack_free, hs, hu] at hv
        simp only [Option.some.injEq] at hv
        have hds := hsize s hs
        have hdu := huse u hu
        omega
  · intro v hv
    obtain ⟨i, hres, -, -⟩ := scan_loop_shape mem sp sp env.stack_end (by omega)
    rw [stack_painted_eq, hres, Option.some.injEq] at hv
    omega
  · intro v hv
    cases hf : current_stack_free env sp with
    | none => rw [stack_painted_binary, hf] at hv; exact absurd hv (by simp)
    | some f =>
      rw [stack_painted_binary, hf, Option.map_some'] at hv
      simp only [Option.some.injEq] at hv
      omega

/-- Claim C8 witness: on the `[8, 16)` stack at `sp = 12` over zeroed
memory, all five byte counts are multiples of four. -/
theorem byte_counts_multiple_of_four_witness :
    ((4 : Nat) ∣ 16 ∧ (4 : Nat) ∣ 8 ∧ (4 : Nat) ∣ 12) ∧
      ((∀ v, stack_size ⟨16, 8⟩ = some v → 4 ∣ v) ∧
        (∀ v, current_stack_in_use ⟨16, 8⟩ 12 = some v → 4 ∣ v) ∧
        (∀ v, current_stack_free ⟨16, 8⟩ 12 = some v → 4 ∣ v) ∧
        (∀ v, stack_painted ⟨16, 8⟩ (fun _ => 0) 12 = some v → 4 ∣ v) ∧
        (∀ v, stack_painted_binary ⟨16, 8⟩ (fun _ => 0) 12 = some v → 4 ∣ v)) :=
  ⟨⟨by decide, by decide, by decide⟩,
    byte_counts_multiple_of_four ⟨16, 8⟩ (fun _ => 0) 12 (by decide) (by decide)
      (by decide)⟩

/-- Claim C9: for `bottom ≤ sp ≤ top` both loops terminate — witnessed by a
finite fuel on which the fueled loops finish and agree with the total
functions — each advancing its pointer by 4 from `bottom`, the scan exiting
at a pointer that reached `sp` or read a non-sentinel word. -/
theorem paint_and_scan_terminate (env : LinkEnv) (mem : Mem) (sp : Nat)
    (hlo : env.stack_end ≤ sp) (hhi : sp ≤ env.stack_start) :
    ∃ fuel p,
      repaint_loopF fuel sp env.stack_end mem = some (repaint_stack env sp mem) ∧
      scan_loopF fuel mem sp env.stack_end = some p ∧
      stack_painted env mem sp = some (p - env.stack_end) ∧
      env.stack_end ≤ p ∧ 4 ∣ (p - env.stack_end) ∧
      (sp ≤ p ∨ (p < sp ∧ mem p ≠ STACK_PAINT_VALUE)) := by
  obtain ⟨i, hres, -, hexit⟩ := scan_loop_shape mem sp sp env.stack_end (by omega)
  refine ⟨sp + 1, scan_loop mem sp env.stack_end,
    repaint_loopF_adequate sp (sp + 1) env.stack_end mem (by omega),
    scan_loopF_adequate mem sp (sp + 1) env.stack_end (by omega),
    stack_painted_eq env mem sp, by omega, by omega, ?_⟩
  rw [hres]
  exact hexit

/-- Claim C9 witness: on the `[8, 16)` stack at `sp = 12` over zeroed
memory, both fueled loops finish. -/
theorem paint_and_scan_terminate_witness :
    ((8 : Nat) ≤ 12 ∧ (12 : Nat) ≤ 16) ∧
      ∃ fuel p,
        repaint_loopF fuel 12 8 (fun _ => 0) =
          some (repaint_stack ⟨16, 8⟩ 12 (fun _ => 0)) ∧
        scan_loopF fuel (fun _ => 0) 12 8 = some p ∧
        stack_painted ⟨16, 8⟩ (fun _ => 0) 12 = some (p - 8) ∧
        8 ≤ p ∧ 4 ∣ (p - 8) ∧
        (12 ≤ p ∨ (p < 12 ∧ (fun _ => (0 : Nat)) p ≠ STACK_PAINT_VALUE)) :=
  ⟨⟨by decide, by decide⟩,
    paint_and_scan_terminate ⟨16, 8⟩ (fun _ => 0) 12 (by decide) (by decide)⟩

/-- Claim C10: `stack()` is inverted with respect to ordinary `Range`
semantics — its `start` is the high `_stack_start`, its `end` the low
`_stack_end`, so it is empty as a range — and `stack_rev()` returns the two
endpoints swapped. -/
theorem stack_range_reversed (env : LinkEnv)
    (h : env.stack_end ≤ env.stack_start) :
    (stack env).start = env.stack_start ∧ (stack env).stop = env.stack_end ∧
    (stack env).stop ≤ (stack env).start ∧
    (stack_rev env).start = (stack env).stop ∧
    (stack_rev env).stop = (stack env).start :=
  ⟨rfl, rfl, h, rfl, rfl⟩

/-- Claim C10 witness: on the `[8, 16)` stack the range fields are as
described. -/
theorem stack_range_reversed_witness :
    ((8 : Nat) ≤ 16) ∧
      ((stack ⟨16, 8⟩).start = 16 ∧ (stack ⟨16, 8⟩).stop = 8 ∧
        (stack ⟨16, 8⟩).stop ≤ (stack ⟨16, 8⟩).start ∧
        (stack_rev ⟨16, 8⟩).start = (stack ⟨16, 8⟩).stop ∧
        (stack_rev ⟨16, 8⟩).stop = (stack ⟨16, 8⟩).start) :=
  ⟨by decide, stack_range_reversed ⟨16, 8⟩ (by decide)⟩

end CortexMStack
